import Mathlib

/-!
# Divisible sum pairs

A shallow embedding of `hackerrank/DivisibleSumPairs.go` and the properties of
`divisibleSumPairs` that follow from it.

Go's `int32` values are modelled as integers in the range `[-2^31, 2^31)`
(`isInt32`); `+` and `++` on `int32` wrap in two's complement (`wrap32`), `%`
truncates toward zero and panics on a zero divisor, and indexing a slice
panics outside its bounds.  The two `for` loops are index loops with explicit
state (the index and the counter); they recurse on a fuel argument, and running
out of fuel is an outcome of its own, distinct from every outcome of the Go
program.
-/

namespace DivisibleSumPairs

/-! ## Machine integers -/

/-- Membership in the range of Go's `int32`. -/
def isInt32 (x : Int) : Prop := -2147483648 ≤ x ∧ x ≤ 2147483647

instance (x : Int) : Decidable (isInt32 x) := by
  unfold isInt32; exact inferInstance

/-- Two's-complement reduction of an integer to the `int32` range. -/
def wrap32 (x : Int) : Int := (x + 2147483648) % 4294967296 - 2147483648

/-- Go's `+` on `int32`: the exact sum, wrapped. -/
def add32 (a b : Int) : Int := wrap32 (a + b)

/-- Go's `%` on `int32`: `none` stands for the run-time panic
"integer divide by zero"; otherwise the remainder of the division that
truncates toward zero (for the most negative dividend and divisor `-1` Go
defines the remainder as `0`, which is also `Int.tmod`). -/
def rem32 (a k : Int) : Option Int :=
  if k = 0 then none else some (Int.tmod a k)

/-! ## Outcomes -/

/-- What a call of `divisibleSumPairs` can end in. -/
inductive Outcome where
  /-- normal return with the value of `count` -/
  | ok (count : Int)
  /-- run-time panic: integer divide by zero -/
  | divideByZero
  /-- run-time panic: index out of range -/
  | indexOutOfRange
  /-- the loop model was given too little fuel (no Go behaviour) -/
  | outOfFuel
  deriving DecidableEq, Repr

/-! ## The program -/

/-- The inner loop `for j := i+1; j < len(ar); j++ { ... }`, entered at index
`j` with counter `count`. -/
def innerLoop (k : Int) (ar : List Int) (i : Nat) : Nat → Nat → Int → Outcome
  | 0, _, _ => Outcome.outOfFuel
  | fuel + 1, j, count =>
    if j < ar.length then
      match ar[i]?, ar[j]? with
      | some a, some b =>
        match rem32 (add32 a b) k with
        | none => Outcome.divideByZero
        | some r =>
          if r = 0 then innerLoop k ar i fuel (j + 1) (add32 count 1)
          else innerLoop k ar i fuel (j + 1) count
      | _, _ => Outcome.indexOutOfRange
    else Outcome.ok count

/-- The outer loop `for i := 0; i < len(ar); i++ { ... }`, entered at index
`i` with counter `count`. -/
def outerLoop (k : Int) (ar : List Int) : Nat → Nat → Int → Outcome
  | 0, _, _ => Outcome.outOfFuel
  | fuel + 1, i, count =>
    if i < ar.length then
      match innerLoop k ar i (ar.length + 1) (i + 1) count with
      | Outcome.ok count1 => outerLoop k ar fuel (i + 1) count1
      | stop => stop
    else Outcome.ok count

/-- The function `divisibleSumPairs(n int32, k int32, ar []int32) int32`.
The parameter `n` is not read by the body. -/
def divisibleSumPairs (n k : Int) (ar : List Int) : Outcome :=
  outerLoop k ar (ar.length + 1) 0 0

/-- The driver `main`: what `fmt.Println` writes to standard output for the
call `divisibleSumPairs(6, 3, []int32{1, 3, 2, 6, 1, 2})`, or the panic that
ends the program. -/
def main : Except Outcome String :=
  match divisibleSumPairs 6 3 [1, 3, 2, 6, 1, 2] with
  | Outcome.ok count => Except.ok (toString count ++ "\n")
  | stop => Except.error stop

/-! ## The same program with floored modulo -/

/-- The remainder with floored modulo (the sign of the result follows the
divisor), as the specification allows an implementer to use; a zero divisor
fails as in `rem32`. -/
def rem32Floored (a k : Int) : Option Int :=
  if k = 0 then none else some (Int.fmod a k)

/-- The loop `innerLoop` with the test evaluated through `rem32Floored`. -/
def innerLoopFloored (k : Int) (ar : List Int) (i : Nat) : Nat → Nat → Int → Outcome
  | 0, _, _ => Outcome.outOfFuel
  | fuel + 1, j, count =>
    if j < ar.length then
      match ar[i]?, ar[j]? with
      | some a, some b =>
        match rem32Floored (add32 a b) k with
        | none => Outcome.divideByZero
        | some r =>
          if r = 0 then innerLoopFloored k ar i fuel (j + 1) (add32 count 1)
          else innerLoopFloored k ar i fuel (j + 1) count
      | _, _ => Outcome.indexOutOfRange
    else Outcome.ok count

/-- The loop `outerLoop` over `innerLoopFloored`. -/
def outerLoopFloored (k : Int) (ar : List Int) : Nat → Nat → Int → Outcome
  | 0, _, _ => Outcome.outOfFuel
  | fuel + 1, i, count =>
    if i < ar.length then
      match innerLoopFloored k ar i (ar.length + 1) (i + 1) count with
      | Outcome.ok count1 => outerLoopFloored k ar fuel (i + 1) count1
      | stop => stop
    else Outcome.ok count

/-- The function `divisibleSumPairs` with the zero-remainder test evaluated
with floored modulo. -/
def divisibleSumPairsFloored (n k : Int) (ar : List Int) : Outcome :=
  outerLoopFloored k ar (ar.length + 1) 0 0

/-! ## Reference counts -/

/-- The number of index pairs `(i, j)` with `0 ≤ i < j < len(ar)` whose exact
integer sum `ar[i] + ar[j]` is a multiple of `k`. -/
def exactPairCount (k : Int) (ar : List Int) : Nat :=
  ((Finset.range ar.length ×ˢ Finset.range ar.length).filter
    (fun p => p.1 < p.2 ∧ k ∣ ar.getD p.1 0 + ar.getD p.2 0)).card

/-- The test of the `if` statement, `(ar[i]+ar[j])%k == 0`, on the two
elements read (for a divisor `k ≠ 0`). -/
def hit (k a b : Int) : Bool := decide (Int.tmod (add32 a b) k = 0)

/-- The number of pairs of positions `i < j` of a list whose elements satisfy
`P`, by recursion on the list. -/
def countPairs (P : Int → Int → Bool) : List Int → Nat
  | [] => 0
  | a :: l => l.countP (P a) + countPairs P l

/-- The number of index pairs `(i, j)` with `0 ≤ i < j < len(ar)` whose
elements pass the test of the `if` statement. -/
def testedPairCount (k : Int) (ar : List Int) : Nat :=
  ((Finset.range ar.length ×ˢ Finset.range ar.length).filter
    (fun p => p.1 < p.2 ∧ hit k (ar.getD p.1 0) (ar.getD p.2 0) = true)).card

/-- Go's unary `-` on `int32`: the exact negation, wrapped (the most negative
value is its own negation). -/
def neg32 (a : Int) : Int := wrap32 (-a)

/-! ## Counting by remainder class -/

/-- The number `c_r` of elements whose floored remainder modulo `k` is `r`. -/
def remainderClassCount (k : Int) (ar : List Int) (r : Int) : Nat :=
  ar.countP (fun x => decide (Int.fmod x k = r))

/-- The counting-by-remainder-class formula
`c_0*(c_0-1)/2 + (sum over 0 < r < k-r of c_r*c_(k-r))
  + (when k is even) c_(k/2)*(c_(k/2)-1)/2`. -/
def remainderClassFormula (k : Int) (ar : List Int) : Nat :=
  remainderClassCount k ar 0 * (remainderClassCount k ar 0 - 1) / 2
    + (∑ r in (Finset.Ico (0 : Int) k).filter (fun r => 0 < r ∧ r < k - r),
        remainderClassCount k ar r * remainderClassCount k ar (k - r))
    + (if k % 2 = 0 then
        remainderClassCount k ar (k / 2) * (remainderClassCount k ar (k / 2) - 1) / 2
      else 0)

/-! ## Arithmetic of `wrap32` -/

theorem wrap32_of_isInt32 {x : Int} (h : isInt32 x) : wrap32 x = x := by
  unfold isInt32 at h
  unfold wrap32
  omega

theorem isInt32_wrap32 (x : Int) : isInt32 (wrap32 x) := by
  unfold isInt32 wrap32
  omega

theorem add32_wrap32_one (c : Int) : add32 (wrap32 c) 1 = wrap32 (c + 1) := by
  unfold add32 wrap32
  omega

theorem add32_comm (a b : Int) : add32 a b = add32 b a := by
  unfold add32
  rw [Int.add_comm]

/-! ## The loops compute `countPairs` -/

theorem innerLoop_eq (k : Int) (ar : List Int) (i : Nat) (a : Int)
    (hk : k ≠ 0) (hi : ar[i]? = some a) :
    ∀ (fuel j : Nat) (c : Int), j ≤ ar.length → ar.length + 1 ≤ fuel + j →
      innerLoop k ar i fuel j (wrap32 c)
        = Outcome.ok (wrap32 (c + ((ar.drop j).countP (hit k a) : Nat))) := by
  intro fuel
  induction fuel with
  | zero =>
    intro j c hj hf
    omega
  | succ fuel ih =>
    intro j c hj hf
    unfold innerLoop
    by_cases hlt : j < ar.length
    · have hjv : ar[j]? = some ar[j] := List.getElem?_eq_getElem hlt
      have hdrop : ar.drop j = ar[j] :: ar.drop (j + 1) := List.drop_eq_getElem_cons hlt
      simp only [hlt, if_true, hi, hjv, rem32, hk, if_false]
      by_cases hr : Int.tmod (add32 a ar[j]) k = 0
      · have hh : hit k a ar[j] = true := by simp [hit, hr]
        rw [if_pos hr, add32_wrap32_one, ih (j + 1) (c + 1) hlt (by omega), hdrop,
          List.countP_cons_of_pos _ _ hh]
        congr 2
        push_cast
        ring
      · have hh : ¬ (hit k a ar[j] = true) := by simp [hit, hr]
        rw [if_neg hr, ih (j + 1) c hlt (by omega), hdrop,
          List.countP_cons_of_neg _ _ hh]
    · have hje : j = ar.length := by omega
      simp [hlt, hje]

theorem outerLoop_eq (k : Int) (ar : List Int) (hk : k ≠ 0) :
    ∀ (fuel i : Nat) (c : Int), i ≤ ar.length → ar.length + 1 ≤ fuel + i →
      outerLoop k ar fuel i (wrap32 c)
        = Outcome.ok (wrap32 (c + (countPairs (hit k) (ar.drop i) : Nat))) := by
  intro fuel
  induction fuel with
  | zero =>
    intro i c hi hf
    omega
  | succ fuel ih =>
    intro i c hi hf
    unfold outerLoop
    by_cases hlt : i < ar.length
    · have hiv : ar[i]? = some ar[i] := List.getElem?_eq_getElem hlt
      have hdrop : ar.drop i = ar[i] :: ar.drop (i + 1) := List.drop_eq_getElem_cons hlt
      rw [if_pos hlt, innerLoop_eq k ar i ar[i] hk hiv (ar.length + 1) (i + 1) c hlt (by omega)]
      simp only
      rw [ih (i + 1) _ hlt (by omega), hdrop]
      simp only [countPairs]
      congr 2
      push_cast
      ring
    · have hie : i = ar.length := by omega
      simp [hlt, hie, countPairs]

/-- For a divisor `k ≠ 0` the call returns, and the value is the number of
pairs of positions `i < j` that pass the test, reduced to 32 bits. -/
theorem divisibleSumPairs_eq (n k : Int) (ar : List Int) (hk : k ≠ 0) :
    divisibleSumPairs n k ar = Outcome.ok (wrap32 (countPairs (hit k) ar : Nat)) := by
  have h := outerLoop_eq k ar hk (ar.length + 1) 0 0 (Nat.zero_le _) (by omega)
  have h0 : wrap32 0 = 0 := by decide
  rw [h0] at h
  simpa [divisibleSumPairs] using h

/-! ## `countPairs` as a count of index pairs -/

theorem countP_eq_sum_range (q : Int → Bool) (l : List Int) :
    l.countP q = ∑ j in Finset.range l.length, if q (l.getD j 0) = true then 1 else 0 := by
  induction l with
  | nil => simp
  | cons a l ih =>
    rw [List.length_cons, Finset.sum_range_succ', List.countP_cons, ih]
    simp

theorem countPairs_eq_sum_range (P : Int → Int → Bool) (l : List Int) :
    countPairs P l = ∑ i in Finset.range l.length, ∑ j in Finset.range l.length,
      if i < j ∧ P (l.getD i 0) (l.getD j 0) = true then 1 else 0 := by
  induction l with
  | nil => simp [countPairs]
  | cons a l ih =>
    rw [List.length_cons, Finset.sum_range_succ']
    simp only [Finset.sum_range_succ', countPairs]
    rw [ih, countP_eq_sum_range]
    simp [Nat.add_comm]

/-- The list recursion `countPairs` counts the index pairs `i < j` whose
elements satisfy `P`. -/
theorem countPairs_eq_card (P : Int → Int → Bool) (l : List Int) :
    countPairs P l = ((Finset.range l.length ×ˢ Finset.range l.length).filter
      (fun p => p.1 < p.2 ∧ P (l.getD p.1 0) (l.getD p.2 0) = true)).card := by
  rw [countPairs_eq_sum_range, Finset.card_filter, Finset.sum_product]

/-- Two tests that agree on the elements of every index pair `i < j` give the
same count. -/
theorem countPairs_congr (P Q : Int → Int → Bool) (l : List Int)
    (h : ∀ i j : Nat, i < j → j < l.length →
      P (l.getD i 0) (l.getD j 0) = Q (l.getD i 0) (l.getD j 0)) :
    countPairs P l = countPairs Q l := by
  rw [countPairs_eq_card, countPairs_eq_card]
  congr 1
  apply Finset.filter_congr
  intro p hp
  rw [Finset.mem_product, Finset.mem_range, Finset.mem_range] at hp
  constructor
  · rintro ⟨h1, h2⟩
    exact ⟨h1, by rw [← h p.1 p.2 h1 hp.2]; exact h2⟩
  · rintro ⟨h1, h2⟩
    exact ⟨h1, by rw [h p.1 p.2 h1 hp.2]; exact h2⟩

theorem triangle_succ (m : Nat) : m + m * (m - 1) / 2 = (m + 1) * (m + 1 - 1) / 2 := by
  cases m with
  | zero => rfl
  | succ m =>
    have e : (m + 1 + 1) * (m + 1 + 1 - 1) = (m + 1) * (m + 1 - 1) + 2 * (m + 1) := by
      simp only [Nat.add_sub_cancel]
      ring
    rw [e, Nat.add_mul_div_left _ _ (by decide : 0 < 2)]
    omega

theorem countPairs_true (l : List Int) :
    countPairs (fun _ _ => true) l = l.length * (l.length - 1) / 2 := by
  induction l with
  | nil => rfl
  | cons a l ih =>
    simp only [countPairs, List.length_cons]
    rw [ih, ← triangle_succ]
    simp

theorem countPairs_false (l : List Int) : countPairs (fun _ _ => false) l = 0 := by
  induction l with
  | nil => rfl
  | cons a l ih =>
    simp only [countPairs]
    rw [ih]
    simp

theorem countPairs_le (P : Int → Int → Bool) (l : List Int) :
    countPairs P l ≤ l.length * (l.length - 1) / 2 := by
  induction l with
  | nil => simp [countPairs]
  | cons a l ih =>
    simp only [countPairs, List.length_cons]
    rw [← triangle_succ]
    exact Nat.add_le_add (List.countP_le_length _) ih

/-- The order of the elements does not matter to a symmetric test. -/
theorem countPairs_perm (P : Int → Int → Bool) (hP : ∀ a b, P a b = P b a)
    {l1 l2 : List Int} (h : l1.Perm l2) : countPairs P l1 = countPairs P l2 := by
  induction h with
  | nil => rfl
  | cons x hp ih =>
    simp only [countPairs]
    rw [ih, hp.countP_eq]
  | swap x y l =>
    simp only [countPairs, List.countP_cons]
    rw [hP y x]
    omega
  | trans _ _ ih1 ih2 => exact ih1.trans ih2

/-! ## The test and divisibility -/

theorem hit_eq_true_iff (k a b : Int) : hit k a b = true ↔ k ∣ add32 a b := by
  simp [hit, Int.dvd_iff_tmod_eq_zero]

theorem hit_comm (k a b : Int) : hit k a b = hit k b a := by
  simp [hit, add32_comm a b]

theorem wrap32_eq_sub (x : Int) :
    wrap32 x = x - 4294967296 * ((x + 2147483648) / 4294967296) := by
  unfold wrap32
  omega

/-- Reduction to 32 bits keeps divisibility by a divisor of `2^32`. -/
theorem dvd_wrap32_iff (k x : Int) (hk : k ∣ 4294967296) : k ∣ wrap32 x ↔ k ∣ x := by
  rw [wrap32_eq_sub]
  exact dvd_sub_left (Dvd.dvd.mul_right hk _)

/-- The exact count, as a `countPairs`. -/
theorem exactPairCount_eq (k : Int) (ar : List Int) :
    exactPairCount k ar = countPairs (fun a b => decide (k ∣ a + b)) ar := by
  rw [countPairs_eq_card]
  unfold exactPairCount
  congr 1
  apply Finset.filter_congr
  intro p _
  simp

/-- When the test on every index pair `i < j` agrees with divisibility of the
exact sum, the call returns the exact count reduced to 32 bits. -/
theorem divisibleSumPairs_eq_exact (n k : Int) (ar : List Int) (hk : k ≠ 0)
    (h : ∀ i j : Nat, i < j → j < ar.length →
      (k ∣ add32 (ar.getD i 0) (ar.getD j 0) ↔ k ∣ ar.getD i 0 + ar.getD j 0)) :
    divisibleSumPairs n k ar = Outcome.ok (wrap32 (exactPairCount k ar : Nat)) := by
  rw [divisibleSumPairs_eq n k ar hk, exactPairCount_eq]
  congr 3
  apply countPairs_congr
  intro i j hij hj
  rw [Bool.eq_iff_iff, hit_eq_true_iff, decide_eq_true_iff]
  exact h i j hij hj

theorem exactPairCount_le (k : Int) (ar : List Int) :
    exactPairCount k ar ≤ ar.length * (ar.length - 1) / 2 := by
  rw [exactPairCount_eq]
  exact countPairs_le _ _

theorem wrap32_natCast_of_le {m b : Nat} (h : m ≤ b) (hb : b ≤ 2147483647) :
    wrap32 (m : Int) = (m : Int) := by
  apply wrap32_of_isInt32
  unfold isInt32
  omega

/-! ## Floored and truncated remainders vanish together -/

theorem fmod_eq_zero_iff_dvd (x k : Int) : Int.fmod x k = 0 ↔ k ∣ x := by
  constructor
  · intro h
    have e := Int.fmod_def x k
    rw [h] at e
    exact ⟨x.fdiv k, by omega⟩
  · rintro ⟨c, rfl⟩
    exact Int.mul_fmod_right k c

theorem fmod_eq_zero_iff_tmod (x k : Int) : Int.fmod x k = 0 ↔ Int.tmod x k = 0 := by
  rw [fmod_eq_zero_iff_dvd, Int.dvd_iff_tmod_eq_zero]

theorem innerLoop_eq_floored (k : Int) (ar : List Int) (i : Nat) :
    ∀ (fuel j : Nat) (c : Int),
      innerLoop k ar i fuel j c = innerLoopFloored k ar i fuel j c := by
  intro fuel
  induction fuel with
  | zero =>
    intro j c
    rfl
  | succ fuel ih =>
    intro j c
    unfold innerLoop innerLoopFloored
    by_cases hlt : j < ar.length
    · simp only [hlt, if_true]
      cases hi : ar[i]? with
      | none => rfl
      | some a =>
        cases hj : ar[j]? with
        | none => rfl
        | some b =>
          by_cases hk : k = 0
          · simp [rem32, rem32Floored, hk]
          · simp only [rem32, rem32Floored, hk, if_false]
            by_cases hr : Int.tmod (add32 a b) k = 0
            · rw [if_pos hr, if_pos ((fmod_eq_zero_iff_tmod _ _).2 hr), ih]
            · rw [if_neg hr, if_neg (fun h => hr ((fmod_eq_zero_iff_tmod _ _).1 h)), ih]
    · simp [hlt]

theorem outerLoop_eq_floored (k : Int) (ar : List Int) :
    ∀ (fuel i : Nat) (c : Int),
      outerLoop k ar fuel i c = outerLoopFloored k ar fuel i c := by
  intro fuel
  induction fuel with
  | zero =>
    intro i c
    rfl
  | succ fuel ih =>
    intro i c
    unfold outerLoop outerLoopFloored
    by_cases hlt : i < ar.length
    · simp only [hlt, if_true]
      rw [← innerLoop_eq_floored]
      cases innerLoop k ar i (ar.length + 1) (i + 1) c with
      | ok c1 => exact ih (i + 1) c1
      | divideByZero => rfl
      | indexOutOfRange => rfl
      | outOfFuel => rfl
    · simp [hlt]

/-! ## The properties of `divisibleSumPairs` -/

/-- C1: for a divisor `k ≠ 0` and a sequence whose pairwise sums
`ar[i] + ar[j]` (`i < j`) fit in 32 bits and whose number of pairs
`len * (len - 1) / 2` is at most `2^31 - 1`, the call returns, for every `n`,
exactly the number of index pairs `i < j < len` whose integer sum is a
multiple of `k`. -/
theorem divisibleSumPairs_counts_pairs (n k : Int) (ar : List Int) (hk : k ≠ 0)
    (hsum : ∀ j, j < ar.length → ∀ i, i < j → isInt32 (ar.getD i 0 + ar.getD j 0))
    (hlen : ar.length * (ar.length - 1) / 2 ≤ 2147483647) :
    divisibleSumPairs n k ar = Outcome.ok (exactPairCount k ar : Nat) := by
  rw [divisibleSumPairs_eq_exact n k ar hk, wrap32_natCast_of_le (exactPairCount_le k ar) hlen]
  intro i j hij hj
  unfold add32
  rw [wrap32_of_isInt32 (hsum j hj i hij)]

/-- The count C1 gives on the elements `1, 2, 4, -1` with divisor `3`. -/
theorem divisibleSumPairs_counts_pairs_witness :
    divisibleSumPairs 4 3 [1, 2, 4, -1] = Outcome.ok (exactPairCount 3 [1, 2, 4, -1] : Nat)
      ∧ exactPairCount 3 [1, 2, 4, -1] = 4 :=
  ⟨divisibleSumPairs_counts_pairs 4 3 [1, 2, 4, -1] (by decide) (by decide) (by decide),
    by decide⟩

/-- C2: the call of the driver, `divisibleSumPairs(6, 3, [1, 3, 2, 6, 1, 2])`,
returns `5`, and the driver prints that value. -/
theorem divisibleSumPairs_driver :
    divisibleSumPairs 6 3 [1, 3, 2, 6, 1, 2] = Outcome.ok 5 ∧ main = Except.ok "5\n" :=
  ⟨by decide, by rfl⟩

/-- C3, as stated, fails: with divisor `0` the call returns the count `0` on
the empty sequence and on a one-element sequence, it does not fail. -/
theorem divisibleSumPairs_zero_divisor_returns :
    divisibleSumPairs 0 0 [] = Outcome.ok 0 ∧ divisibleSumPairs 1 0 [7] = Outcome.ok 0 :=
  ⟨by decide, by decide⟩

/-- C3, amended: for every `n` and every sequence with at least two elements,
the call with divisor `0` ends in the division-by-zero panic; it returns no
count. -/
theorem divisibleSumPairs_zero_divisor_fails (n : Int) (ar : List Int)
    (hlen : 2 ≤ ar.length) :
    divisibleSumPairs n 0 ar = Outcome.divideByZero := by
  match ar, hlen with
  | a :: b :: rest, _ =>
    simp [divisibleSumPairs, outerLoop, innerLoop, rem32]

/-- The panic C3 (amended) gives on a two-element sequence. -/
theorem divisibleSumPairs_zero_divisor_fails_witness :
    2 ≤ [1, 2].length ∧ divisibleSumPairs 2 0 [1, 2] = Outcome.divideByZero :=
  ⟨by decide, divisibleSumPairs_zero_divisor_fails 2 [1, 2] (by decide)⟩

/-- C4, as stated, fails: on the 32-bit elements `2147483647, 2` with divisor
`3` the exact sum `2147483649` is a multiple of `3`, the wrapped sum
`-2147483647` is not, and the call returns `0` where the exact count is `1`. -/
theorem divisibleSumPairs_overflow_changes_count :
    isInt32 2147483647 ∧ isInt32 2 ∧ (3 : Int) ∣ 2147483647 + 2
      ∧ add32 2147483647 2 = -2147483647
      ∧ divisibleSumPairs 2 3 [2147483647, 2] = Outcome.ok 0
      ∧ exactPairCount 3 [2147483647, 2] = 1 :=
  ⟨by decide, by decide, by decide, by decide, by decide, by decide⟩

/-- C4, amended: for a divisor `k ≠ 0` that divides `2^32`, or a sequence
whose pairwise sums `ar[i] + ar[j]` (`i < j`) all fit in 32 bits, the test the
code performs on the 32-bit sum of each pair agrees with divisibility of the
exact sum, and the call returns the number of pairs `i < j` whose exact sum is
a multiple of `k`, reduced to the 32 bits of the counter. -/
theorem divisibleSumPairs_exact_of_no_overflow (n k : Int) (ar : List Int) (hk : k ≠ 0)
    (h : k ∣ 4294967296 ∨
      ∀ j, j < ar.length → ∀ i, i < j → isInt32 (ar.getD i 0 + ar.getD j 0)) :
    (∀ j, j < ar.length → ∀ i, i < j →
        (Int.tmod (add32 (ar.getD i 0) (ar.getD j 0)) k = 0
          ↔ k ∣ ar.getD i 0 + ar.getD j 0))
      ∧ divisibleSumPairs n k ar = Outcome.ok (wrap32 (exactPairCount k ar : Nat)) := by
  have key : ∀ i j : Nat, i < j → j < ar.length →
      (k ∣ add32 (ar.getD i 0) (ar.getD j 0) ↔ k ∣ ar.getD i 0 + ar.getD j 0) := by
    intro i j hij hj
    unfold add32
    cases h with
    | inl hdvd => exact dvd_wrap32_iff k _ hdvd
    | inr hsum => rw [wrap32_of_isInt32 (hsum j hj i hij)]
  refine ⟨?_, divisibleSumPairs_eq_exact n k ar hk key⟩
  intro j hj i hij
  rw [← Int.dvd_iff_tmod_eq_zero]
  exact key i j hij hj

/-- The count C4 (amended) gives with divisor `2` on a pair whose sum
overflows. -/
theorem divisibleSumPairs_exact_of_no_overflow_witness :
    ((2 : Int) ∣ 4294967296 ∨ ∀ j, j < [2147483647, 1].length → ∀ i, i < j →
        isInt32 ((([2147483647, 1] : List Int).getD i 0) + ([2147483647, 1] : List Int).getD j 0))
      ∧ (∀ j, j < [2147483647, 1].length → ∀ i, i < j →
        (Int.tmod (add32 (([2147483647, 1] : List Int).getD i 0)
            (([2147483647, 1] : List Int).getD j 0)) 2 = 0
          ↔ (2 : Int) ∣ ([2147483647, 1] : List Int).getD i 0
              + ([2147483647, 1] : List Int).getD j 0))
      ∧ divisibleSumPairs 2 2 [2147483647, 1]
          = Outcome.ok (wrap32 (exactPairCount 2 [2147483647, 1] : Nat)) :=
  ⟨Or.inl (by decide),
    divisibleSumPairs_exact_of_no_overflow 2 2 [2147483647, 1] (by decide) (Or.inl (by decide))⟩

/-- C5: for every divisor `k` (`0` included), every `n` and every sequence of
length `0` or `1`, the call returns `0`; it does not fail. -/
theorem divisibleSumPairs_short (n k : Int) (ar : List Int) (hlen : ar.length ≤ 1) :
    divisibleSumPairs n k ar = Outcome.ok 0 := by
  match ar, hlen with
  | [], _ => rfl
  | [a], _ => simp [divisibleSumPairs, outerLoop, innerLoop]

/-- The value C5 gives on a one-element sequence with divisor `0`. -/
theorem divisibleSumPairs_short_witness :
    [-4].length ≤ 1 ∧ divisibleSumPairs 1 0 [-4] = Outcome.ok 0 :=
  ⟨by decide, divisibleSumPairs_short 1 0 [-4] (by decide)⟩

/-- C6, as stated, fails: the 32-bit elements `2147483646, 2147483646` are
multiples of `3`, their sum overflows to `-4`, and the call returns `0` where
`n * (n - 1) / 2` is `1`. -/
theorem divisibleSumPairs_multiples_overflow :
    isInt32 2147483646 ∧ (3 : Int) ∣ 2147483646
      ∧ add32 2147483646 2147483646 = -4
      ∧ divisibleSumPairs 2 3 [2147483646, 2147483646] = Outcome.ok 0
      ∧ [2147483646, 2147483646].length * ([2147483646, 2147483646].length - 1) / 2 = 1 :=
  ⟨by decide, by decide, by decide, by decide, by decide⟩

/-- C6, amended: for a divisor `k ≠ 0` and a sequence of length `len` in
which every element is a multiple of `k` and every pairwise sum
`ar[i] + ar[j]` (`i < j`) fits in 32 bits, the call returns
`len * (len - 1) / 2` reduced to the 32 bits of the counter, which is
`len * (len - 1) / 2` itself when that is at most `2^31 - 1`; in particular
`k = 1` with `[1, 2, 3]` gives `3` and `k = 5` with `[5, 10, 15, 20]` gives
`6`. -/
theorem divisibleSumPairs_all_multiples (n k : Int) (ar : List Int) (hk : k ≠ 0)
    (hall : ∀ x ∈ ar, k ∣ x)
    (hsum : ∀ j, j < ar.length → ∀ i, i < j → isInt32 (ar.getD i 0 + ar.getD j 0)) :
    divisibleSumPairs n k ar
        = Outcome.ok (wrap32 ((ar.length * (ar.length - 1) / 2 : Nat) : Int))
      ∧ (ar.length * (ar.length - 1) / 2 ≤ 2147483647 →
          divisibleSumPairs n k ar
            = Outcome.ok ((ar.length * (ar.length - 1) / 2 : Nat) : Int))
      ∧ divisibleSumPairs 3 1 [1, 2, 3] = Outcome.ok 3
      ∧ divisibleSumPairs 4 5 [5, 10, 15, 20] = Outcome.ok 6 := by
  have hcount : exactPairCount k ar = ar.length * (ar.length - 1) / 2 := by
    rw [exactPairCount_eq, ← countPairs_true]
    apply countPairs_congr
    intro i j hij hj
    rw [List.getD_eq_getElem _ _ (Nat.lt_trans hij hj), List.getD_eq_getElem _ _ hj]
    exact decide_eq_true
      (Int.dvd_add (hall _ (List.getElem_mem _)) (hall _ (List.getElem_mem _)))
  have hret : divisibleSumPairs n k ar
      = Outcome.ok (wrap32 ((ar.length * (ar.length - 1) / 2 : Nat) : Int)) := by
    rw [← hcount]
    apply divisibleSumPairs_eq_exact n k ar hk
    intro i j hij hj
    unfold add32
    rw [wrap32_of_isInt32 (hsum j hj i hij)]
  refine ⟨hret, ?_, by decide, by decide⟩
  intro hlen
  rw [hret, wrap32_natCast_of_le (Nat.le_refl _) hlen]

/-- The value C6 (amended) gives on `[3, 6, 9, -12]` with divisor `3`. -/
theorem divisibleSumPairs_all_multiples_witness :
    (∀ x ∈ ([3, 6, 9, -12] : List Int), (3 : Int) ∣ x)
      ∧ divisibleSumPairs 4 3 [3, 6, 9, -12] = Outcome.ok 6 :=
  ⟨by decide,
    (divisibleSumPairs_all_multiples 4 3 [3, 6, 9, -12] (by decide) (by decide)
      (by decide)).2.1 (by decide)⟩

/-- C7, as stated, fails: the sum of the 32-bit elements `2147483647, 3` is
not a multiple of `3`, the wrapped sum `-2147483646` is, and the call returns
`1`. -/
theorem divisibleSumPairs_no_pair_overflow :
    isInt32 2147483647 ∧ isInt32 3 ∧ ¬ ((3 : Int) ∣ 2147483647 + 3)
      ∧ add32 2147483647 3 = -2147483646
      ∧ divisibleSumPairs 2 3 [2147483647, 3] = Outcome.ok 1 :=
  ⟨by decide, by decide, by decide, by decide, by decide⟩

/-- C7, amended: for a divisor `k ≠ 0` and a sequence whose pairwise sums
`ar[i] + ar[j]` (`i < j`) fit in 32 bits, if no two elements at distinct
positions have a sum that is a multiple of `k`, the call returns `0`. -/
theorem divisibleSumPairs_no_pair (n k : Int) (ar : List Int) (hk : k ≠ 0)
    (hsum : ∀ j, j < ar.length → ∀ i, i < j → isInt32 (ar.getD i 0 + ar.getD j 0))
    (hnone : ∀ j, j < ar.length → ∀ i, i < j → ¬ k ∣ ar.getD i 0 + ar.getD j 0) :
    divisibleSumPairs n k ar = Outcome.ok 0 := by
  have hcount : exactPairCount k ar = 0 := by
    rw [exactPairCount_eq, ← countPairs_false ar]
    apply countPairs_congr
    intro i j hij hj
    exact decide_eq_false (hnone j hj i hij)
  have hret := divisibleSumPairs_eq_exact n k ar hk (by
    intro i j hij hj
    unfold add32
    rw [wrap32_of_isInt32 (hsum j hj i hij)])
  rw [hret, hcount]
  rfl

/-- The value C7 (amended) gives on `[1, 4, -5, 7]` with divisor `3`. -/
theorem divisibleSumPairs_no_pair_witness :
    (∀ j, j < [1, 4, -5, 7].length → ∀ i, i < j →
        ¬ (3 : Int) ∣ ([1, 4, -5, 7] : List Int).getD i 0 + ([1, 4, -5, 7] : List Int).getD j 0)
      ∧ divisibleSumPairs 4 3 [1, 4, -5, 7] = Outcome.ok 0 :=
  ⟨by decide,
    divisibleSumPairs_no_pair 4 3 [1, 4, -5, 7] (by decide) (by decide) (by decide)⟩

/-- C8: for a divisor `k ≠ 0` and every `n`, the outcome of the call is the
same on a sequence and on each of its permutations. -/
theorem divisibleSumPairs_perm (n k : Int) (ar br : List Int) (hk : k ≠ 0)
    (hperm : ar.Perm br) :
    divisibleSumPairs n k ar = divisibleSumPairs n k br := by
  rw [divisibleSumPairs_eq n k ar hk, divisibleSumPairs_eq n k br hk,
    countPairs_perm (hit k) (hit_comm k) hperm]

/-- The equality C8 gives on the driver's sequence and a rearrangement of it,
with the common value. -/
theorem divisibleSumPairs_perm_witness :
    List.Perm [1, 3, 2, 6, 1, 2] [2, 6, 1, 1, 2, 3]
      ∧ divisibleSumPairs 6 3 [1, 3, 2, 6, 1, 2] = divisibleSumPairs 6 3 [2, 6, 1, 1, 2, 3]
      ∧ divisibleSumPairs 6 3 [2, 6, 1, 1, 2, 3] = Outcome.ok 5 :=
  ⟨by decide,
    divisibleSumPairs_perm 6 3 [1, 3, 2, 6, 1, 2] [2, 6, 1, 1, 2, 3] (by decide) (by decide),
    by decide⟩

/-- C9, as stated, fails: on the sequence of `65537` zeros with divisor `1`
every one of the `2147516416` pairs passes the test, the 32-bit counter wraps,
and the value returned is negative. -/
theorem divisibleSumPairs_counter_wraps :
    divisibleSumPairs 65537 1 (List.replicate 65537 0) = Outcome.ok (-2147450880)
      ∧ (List.replicate 65537 (0 : Int)).length = 65537
      ∧ ¬ ((0 : Int) ≤ -2147450880) := by
  refine ⟨?_, List.length_replicate _ _, by decide⟩
  have hall : countPairs (hit 1) (List.replicate 65537 0)
      = countPairs (fun _ _ => true) (List.replicate 65537 0) := by
    apply countPairs_congr
    intro i j _ _
    exact (hit_eq_true_iff 1 _ _).2 (one_dvd _)
  rw [divisibleSumPairs_eq 65537 1 _ (by decide), hall, countPairs_true,
    List.length_replicate]
  decide

/-- C9, amended: for a divisor `k ≠ 0` and a sequence of length `len` with
`len * (len - 1) / 2 ≤ 2^31 - 1`, the call returns a value `r` with
`0 ≤ r ≤ len * (len - 1) / 2`. -/
theorem divisibleSumPairs_bounds (n k : Int) (ar : List Int) (hk : k ≠ 0)
    (hlen : ar.length * (ar.length - 1) / 2 ≤ 2147483647) :
    ∃ r : Int, divisibleSumPairs n k ar = Outcome.ok r
      ∧ 0 ≤ r ∧ r ≤ ((ar.length * (ar.length - 1) / 2 : Nat) : Int) := by
  refine ⟨(countPairs (hit k) ar : Nat), ?_, Int.ofNat_nonneg _,
    Int.ofNat_le.2 (countPairs_le _ _)⟩
  rw [divisibleSumPairs_eq n k ar hk, wrap32_natCast_of_le (countPairs_le _ _) hlen]

/-- The bounds C9 (amended) gives on the driver's input. -/
theorem divisibleSumPairs_bounds_witness :
    [1, 3, 2, 6, 1, 2].length * ([1, 3, 2, 6, 1, 2].length - 1) / 2 ≤ 2147483647
      ∧ ∃ r : Int, divisibleSumPairs 6 3 [1, 3, 2, 6, 1, 2] = Outcome.ok r
        ∧ 0 ≤ r ∧ r ≤ (([1, 3, 2, 6, 1, 2].length * ([1, 3, 2, 6, 1, 2].length - 1) / 2
          : Nat) : Int) :=
  ⟨by decide, divisibleSumPairs_bounds 6 3 [1, 3, 2, 6, 1, 2] (by decide) (by decide)⟩

/-- C10: for a divisor `k ≠ 0`, every `n` and every sequence, the call with
the source's truncating remainder test has the same outcome, hence the same
count, as the same program with the test evaluated with floored modulo. -/
theorem divisibleSumPairs_floored (n k : Int) (ar : List Int) (hk : k ≠ 0) :
    divisibleSumPairs n k ar = divisibleSumPairsFloored n k ar
      ∧ ∃ r : Int, divisibleSumPairs n k ar = Outcome.ok r := by
  refine ⟨?_, _, divisibleSumPairs_eq n k ar hk⟩
  unfold divisibleSumPairs divisibleSumPairsFloored
  exact outerLoop_eq_floored k ar _ _ _

/-- The equality C10 gives for a negative divisor and negative sums, where
the two remainders differ in sign on the pairs that fail the test. -/
theorem divisibleSumPairs_floored_witness :
    ((-3 : Int) ≠ 0)
      ∧ Int.tmod (add32 (-1) 5) (-3) = 1 ∧ Int.fmod (add32 (-1) 5) (-3) = -2
      ∧ divisibleSumPairs 4 (-3) [-1, -2, 5, -7] = Outcome.ok 3
      ∧ divisibleSumPairsFloored 4 (-3) [-1, -2, 5, -7] = Outcome.ok 3
      ∧ (divisibleSumPairs 4 (-3) [-1, -2, 5, -7]
          = divisibleSumPairsFloored 4 (-3) [-1, -2, 5, -7]
        ∧ ∃ r : Int, divisibleSumPairs 4 (-3) [-1, -2, 5, -7] = Outcome.ok r) :=
  ⟨by decide, by decide, by decide, by decide, by decide,
    divisibleSumPairs_floored 4 (-3) [-1, -2, 5, -7] (by decide)⟩

/-! ## The remainder-class formula counts the same pairs -/

theorem remainderClassCount_cons (k a : Int) (l : List Int) (r : Int) :
    remainderClassCount k (a :: l) r
      = remainderClassCount k l r + if Int.fmod a k = r then 1 else 0 := by
  unfold remainderClassCount
  rw [List.countP_cons]
  simp

theorem dvd_of_lt_two_mul {k x : Int} (hk : 0 < k) (h0 : 0 ≤ x) (h2 : x < 2 * k)
    (hd : k ∣ x) : x = 0 ∨ x = k := by
  obtain ⟨c, hc⟩ := hd
  have h1 : 0 ≤ c := by
    by_contra h
    push_neg at h
    nlinarith
  have h3 : c < 2 := by
    by_contra h
    push_neg at h
    nlinarith
  interval_cases c
  · left
    simpa using hc
  · right
    simpa using hc

/-- For a positive divisor, `k ∣ a + b` says that the floored remainder of `b`
is the complement of that of `a`. -/
theorem dvd_add_iff_fmod (k a b : Int) (hk : 0 < k) :
    k ∣ a + b ↔ Int.fmod b k = if Int.fmod a k = 0 then 0 else k - Int.fmod a k := by
  rw [Int.fmod_eq_emod _ (Int.le_of_lt hk), Int.fmod_eq_emod _ (Int.le_of_lt hk)]
  have ha0 := Int.emod_nonneg a (Int.ne_of_gt hk)
  have ha1 := Int.emod_lt_of_pos a hk
  have hb0 := Int.emod_nonneg b (Int.ne_of_gt hk)
  have hb1 := Int.emod_lt_of_pos b hk
  have hsum : k ∣ a + b ↔ k ∣ a % k + b % k := by
    constructor
    · intro h
      apply Int.dvd_of_emod_eq_zero
      rw [← Int.add_emod]
      exact Int.emod_eq_zero_of_dvd h
    · intro h
      apply Int.dvd_of_emod_eq_zero
      rw [Int.add_emod]
      exact Int.emod_eq_zero_of_dvd h
  rw [hsum]
  constructor
  · intro h
    rcases dvd_of_lt_two_mul hk (by omega) (by omega) h with h0 | h0
    · split_ifs <;> omega
    · split_ifs <;> omega
  · intro h
    split_ifs at h with hz
    · rw [hz, h]
      exact ⟨0, by simp⟩
    · rw [h]
      exact ⟨1, by ring⟩

theorem countP_dvd_eq_class (k a : Int) (l : List Int) (hk : 0 < k) :
    l.countP (fun b => decide (k ∣ a + b))
      = remainderClassCount k l (if Int.fmod a k = 0 then 0 else k - Int.fmod a k) := by
  unfold remainderClassCount
  apply List.countP_congr
  intro b _
  simp only [decide_eq_true_eq]
  exact dvd_add_iff_fmod k a b hk

theorem triangle_ite (m : Nat) (p : Prop) [Decidable p] :
    (m + if p then 1 else 0) * (m + (if p then 1 else 0) - 1) / 2
      = m * (m - 1) / 2 + if p then m else 0 := by
  split_ifs
  · rw [← triangle_succ]
    omega
  · simp

theorem classProducts_cons (k a : Int) (l : List Int) :
    (∑ r in (Finset.Ico (0 : Int) k).filter (fun r => 0 < r ∧ r < k - r),
        remainderClassCount k (a :: l) r * remainderClassCount k (a :: l) (k - r))
      = (∑ r in (Finset.Ico (0 : Int) k).filter (fun r => 0 < r ∧ r < k - r),
          remainderClassCount k l r * remainderClassCount k l (k - r))
        + (if 0 < Int.fmod a k ∧ Int.fmod a k < k - Int.fmod a k
            then remainderClassCount k l (k - Int.fmod a k) else 0)
        + (if Int.fmod a k < k ∧ k - Int.fmod a k < Int.fmod a k
            then remainderClassCount k l (k - Int.fmod a k) else 0) := by
  have each : ∀ r ∈ (Finset.Ico (0 : Int) k).filter (fun r => 0 < r ∧ r < k - r),
      remainderClassCount k (a :: l) r * remainderClassCount k (a :: l) (k - r)
        = remainderClassCount k l r * remainderClassCount k l (k - r)
          + (if Int.fmod a k = r then remainderClassCount k l (k - r) else 0)
          + (if k - Int.fmod a k = r then remainderClassCount k l r else 0) := by
    intro r hr
    rw [Finset.mem_filter, Finset.mem_Ico] at hr
    rw [remainderClassCount_cons, remainderClassCount_cons]
    by_cases h1 : Int.fmod a k = r
    · have h2 : ¬ Int.fmod a k = k - r := by omega
      have h3 : ¬ k - Int.fmod a k = r := by omega
      rw [if_pos h1, if_neg h2, if_pos h1, if_neg h3]
      ring
    · by_cases h2 : Int.fmod a k = k - r
      · have h3 : k - Int.fmod a k = r := by omega
        rw [if_neg h1, if_pos h2, if_neg h1, if_pos h3]
        ring
      · have h3 : ¬ k - Int.fmod a k = r := by omega
        rw [if_neg h1, if_neg h2, if_neg h1, if_neg h3]
        ring
  rw [Finset.sum_congr rfl each, Finset.sum_add_distrib, Finset.sum_add_distrib,
    Finset.sum_ite_eq, Finset.sum_ite_eq]
  simp only [Finset.mem_filter, Finset.mem_Ico]
  congr 1
  · congr 1
    by_cases h : 0 < Int.fmod a k ∧ Int.fmod a k < k - Int.fmod a k
    · rw [if_pos h, if_pos ⟨⟨by omega, by omega⟩, h⟩]
    · rw [if_neg h, if_neg (fun h1 => h h1.2)]
  · by_cases h : Int.fmod a k < k ∧ k - Int.fmod a k < Int.fmod a k
    · rw [if_pos h, if_pos ⟨⟨by omega, by omega⟩, by omega, by omega⟩]
    · rw [if_neg h, if_neg (fun h1 => h (by omega))]

theorem remainderClassFormula_cons (k a : Int) (l : List Int) (hk : 0 < k) :
    remainderClassFormula k (a :: l)
      = remainderClassCount k l (if Int.fmod a k = 0 then 0 else k - Int.fmod a k)
        + remainderClassFormula k l := by
  have h0 := Int.fmod_nonneg' a hk
  have h1 := Int.fmod_lt_of_pos a hk
  unfold remainderClassFormula
  rw [classProducts_cons, remainderClassCount_cons k a l 0,
    remainderClassCount_cons k a l (k / 2), triangle_ite, triangle_ite]
  by_cases hz : Int.fmod a k = 0
  · have e1 : ¬ (0 < Int.fmod a k ∧ Int.fmod a k < k - Int.fmod a k) := by omega
    have e2 : ¬ (Int.fmod a k < k ∧ k - Int.fmod a k < Int.fmod a k) := by omega
    rw [if_pos hz, if_pos hz, if_neg e1, if_neg e2]
    split_ifs <;> omega
  · rw [if_neg hz, if_neg hz]
    rcases Int.lt_trichotomy (Int.fmod a k) (k - Int.fmod a k) with hlt | heq | hgt
    · have e1 : 0 < Int.fmod a k ∧ Int.fmod a k < k - Int.fmod a k := by omega
      have e2 : ¬ (Int.fmod a k < k ∧ k - Int.fmod a k < Int.fmod a k) := by omega
      rw [if_pos e1, if_neg e2]
      split_ifs <;> omega
    · have e1 : ¬ (0 < Int.fmod a k ∧ Int.fmod a k < k - Int.fmod a k) := by omega
      have e2 : ¬ (Int.fmod a k < k ∧ k - Int.fmod a k < Int.fmod a k) := by omega
      have e3 : Int.fmod a k = k / 2 := by omega
      have e4 : k % 2 = 0 := by omega
      have e5 : k - Int.fmod a k = k / 2 := by omega
      rw [if_neg e1, if_neg e2, if_pos e3, if_pos e4, if_pos e4, e5]
      omega
    · have e1 : ¬ (0 < Int.fmod a k ∧ Int.fmod a k < k - Int.fmod a k) := by omega
      have e2 : Int.fmod a k < k ∧ k - Int.fmod a k < Int.fmod a k := by omega
      rw [if_neg e1, if_pos e2]
      split_ifs <;> omega

theorem remainderClassFormula_nil (k : Int) : remainderClassFormula k [] = 0 := by
  simp [remainderClassFormula, remainderClassCount]

/-- For a positive divisor the formula is the number of pairs of positions
whose exact sum is a multiple of `k`. -/
theorem countPairs_dvd_eq_formula (k : Int) (hk : 0 < k) (l : List Int) :
    countPairs (fun a b => decide (k ∣ a + b)) l = remainderClassFormula k l := by
  induction l with
  | nil => rw [remainderClassFormula_nil]; rfl
  | cons a l ih =>
    rw [remainderClassFormula_cons k a l hk, ← ih, ← countP_dvd_eq_class k a l hk]
    rfl

/-! ## Further facts about `countPairs` -/

theorem testedPairCount_eq (k : Int) (ar : List Int) :
    testedPairCount k ar = countPairs (hit k) ar := by
  unfold testedPairCount
  rw [countPairs_eq_card]

theorem countPairs_cons (P : Int → Int → Bool) (a : Int) (l : List Int) :
    countPairs P (a :: l) = l.countP (P a) + countPairs P l := rfl

theorem countPairs_append_singleton (P : Int → Int → Bool) (l : List Int) (x : Int) :
    countPairs P (l ++ [x]) = countPairs P l + l.countP (fun a => P a x) := by
  induction l with
  | nil => simp [countPairs]
  | cons a l ih =>
    rw [List.cons_append, countPairs_cons, countPairs_cons, ih, List.countP_append,
      List.countP_cons, List.countP_nil, List.countP_cons]
    omega

theorem countPairs_le_append (P : Int → Int → Bool) (l1 l2 : List Int) :
    countPairs P l1 ≤ countPairs P (l1 ++ l2) := by
  induction l1 with
  | nil => simp [countPairs]
  | cons a l ih =>
    rw [List.cons_append, countPairs_cons, countPairs_cons, List.countP_append]
    omega

theorem wrap32_add_wrap32 (a b : Int) : wrap32 (wrap32 a + b) = wrap32 (a + b) := by
  unfold wrap32
  omega

theorem neg32_eq (k : Int) (hk : isInt32 k) : neg32 k = -k ∨ neg32 k = k := by
  unfold isInt32 at hk
  unfold neg32 wrap32
  omega

theorem hit_neg32 (k : Int) (hk : isInt32 k) : hit (neg32 k) = hit k := by
  funext a b
  rcases neg32_eq k hk with h | h
  · rw [h]
    simp [hit, Int.tmod_neg]
  · rw [h]

theorem neg32_ne_zero (k : Int) (hk : k ≠ 0) (hk32 : isInt32 k) : neg32 k ≠ 0 := by
  rcases neg32_eq k hk32 with h | h
  · rw [h]
    omega
  · rw [h]
    exact hk

/-! ## Behaviour: completion, the zero divisor, and relations between calls -/

/-- C11: for a divisor `k ≠ 0`, every `n` and every sequence (negative
elements, negative `k`, the empty sequence and a sum equal to the most negative
32-bit value with `k = -1` included), the call completes and returns a 32-bit
value: it ends neither in an index-out-of-range panic nor in a
division-by-zero panic, and the loops do not run out of fuel. -/
theorem divisibleSumPairs_completes (n k : Int) (ar : List Int) (hk : k ≠ 0) :
    (∃ r : Int, divisibleSumPairs n k ar = Outcome.ok r ∧ isInt32 r)
      ∧ divisibleSumPairs n k ar ≠ Outcome.indexOutOfRange
      ∧ divisibleSumPairs n k ar ≠ Outcome.divideByZero
      ∧ divisibleSumPairs n k ar ≠ Outcome.outOfFuel := by
  have h := divisibleSumPairs_eq n k ar hk
  refine ⟨⟨_, h, isInt32_wrap32 _⟩, ?_, ?_, ?_⟩ <;> rw [h] <;> exact Outcome.noConfusion

/-- The return C11 gives when a sum is the most negative 32-bit value and the
divisor is `-1`, with the remainder taken there and the value returned. -/
theorem divisibleSumPairs_completes_witness :
    ((-1 : Int) ≠ 0) ∧ add32 (-2147483648) 0 = -2147483648
      ∧ rem32 (-2147483648) (-1) = some 0
      ∧ divisibleSumPairs 3 (-1) [-2147483648, 0, -7] = Outcome.ok 3
      ∧ ((∃ r : Int, divisibleSumPairs 3 (-1) [-2147483648, 0, -7] = Outcome.ok r ∧ isInt32 r)
        ∧ divisibleSumPairs 3 (-1) [-2147483648, 0, -7] ≠ Outcome.indexOutOfRange
        ∧ divisibleSumPairs 3 (-1) [-2147483648, 0, -7] ≠ Outcome.divideByZero
        ∧ divisibleSumPairs 3 (-1) [-2147483648, 0, -7] ≠ Outcome.outOfFuel) :=
  ⟨by decide, by decide, by decide, by decide,
    divisibleSumPairs_completes 3 (-1) [-2147483648, 0, -7] (by decide)⟩

/-- C12: with divisor `0` the call ends in the division-by-zero panic if and
only if the sequence has at least two elements, and it returns a count if and
only if the sequence has fewer than two; a call that fails returns no
count. -/
theorem divisibleSumPairs_zero_divisor_iff (n : Int) (ar : List Int) :
    (divisibleSumPairs n 0 ar = Outcome.divideByZero ↔ 2 ≤ ar.length)
      ∧ ((∃ r : Int, divisibleSumPairs n 0 ar = Outcome.ok r) ↔ ar.length < 2) := by
  match ar with
  | [] =>
    have h : divisibleSumPairs n 0 [] = Outcome.ok 0 := rfl
    simp [h]
  | [a] =>
    have h : divisibleSumPairs n 0 [a] = Outcome.ok 0 := by
      simp [divisibleSumPairs, outerLoop, innerLoop]
    simp [h]
  | a :: b :: rest =>
    have h : divisibleSumPairs n 0 (a :: b :: rest) = Outcome.divideByZero := by
      simp [divisibleSumPairs, outerLoop, innerLoop, rem32]
    simp [h]

/-- C13: for a divisor `k > 0` and a sequence whose pairwise sums fit in 32
bits and whose number of pairs `len * (len - 1) / 2` is at most `2^31 - 1`,
the brute-force result of the call is the value of the
counting-by-remainder-class formula. -/
theorem divisibleSumPairs_eq_remainderClassFormula (n k : Int) (ar : List Int)
    (hk : 0 < k)
    (hsum : ∀ j, j < ar.length → ∀ i, i < j → isInt32 (ar.getD i 0 + ar.getD j 0))
    (hlen : ar.length * (ar.length - 1) / 2 ≤ 2147483647) :
    divisibleSumPairs n k ar = Outcome.ok (remainderClassFormula k ar : Nat) := by
  have hexact : exactPairCount k ar = remainderClassFormula k ar := by
    rw [exactPairCount_eq, countPairs_dvd_eq_formula k hk]
  rw [← hexact, divisibleSumPairs_eq_exact n k ar (Int.ne_of_gt hk),
    wrap32_natCast_of_le (exactPairCount_le k ar) hlen]
  intro i j hij hj
  unfold add32
  rw [wrap32_of_isInt32 (hsum j hj i hij)]

/-- The value C13 gives for the even divisor `4` on a sequence with negative
elements and all four remainder classes. -/
theorem divisibleSumPairs_eq_remainderClassFormula_witness :
    (0 : Int) < 4
      ∧ remainderClassFormula 4 [1, 3, 2, 6, -1, 2, 0, 4, 8, -3] = 10
      ∧ divisibleSumPairs 10 4 [1, 3, 2, 6, -1, 2, 0, 4, 8, -3]
          = Outcome.ok (remainderClassFormula 4 [1, 3, 2, 6, -1, 2, 0, 4, 8, -3] : Nat) :=
  ⟨by decide, by decide,
    divisibleSumPairs_eq_remainderClassFormula 10 4 [1, 3, 2, 6, -1, 2, 0, 4, 8, -3]
      (by decide) (by decide) (by decide)⟩

/-- C14: the parameter `n` is never read: for every `k`, every sequence and
every two values `n1`, `n2` the two calls have the same outcome, and that
outcome is decided by `k` and the actual length of the sequence alone: the
division-by-zero panic when `k = 0` and there are at least two elements, and
otherwise the number of index pairs `i < j < len(ar)` that pass the test,
reduced to 32 bits. -/
theorem divisibleSumPairs_ignores_n (n1 n2 k : Int) (ar : List Int) :
    divisibleSumPairs n1 k ar = divisibleSumPairs n2 k ar
      ∧ divisibleSumPairs n1 k ar
          = if k = 0 ∧ 2 ≤ ar.length then Outcome.divideByZero
            else Outcome.ok (wrap32 (testedPairCount k ar : Nat)) := by
  refine ⟨rfl, ?_⟩
  by_cases hk : k = 0
  · subst hk
    match ar with
    | [] => rfl
    | [a] =>
      have h : testedPairCount 0 [a] = 0 := by
        rw [testedPairCount_eq]
        rfl
      rw [h]
      simp [divisibleSumPairs, outerLoop, innerLoop]
      rfl
    | a :: b :: rest =>
      simp [divisibleSumPairs, outerLoop, innerLoop, rem32]
  · rw [if_neg (fun h => hk h.1), testedPairCount_eq]
    exact divisibleSumPairs_eq n1 k ar hk

/-- C15: for a divisor `k ≠ 0`, the result on a sequence with `x` appended is
the 32-bit wrapping sum of the result on the sequence and the number of its
positions `i` for which the test `(ar[i]+x)%k == 0` holds; and when the
counter does not overflow on the sequence (the number of pairs that pass the
test is at most `2^31 - 1`), the result on each of its prefixes is at most the
result on the whole sequence. -/
theorem divisibleSumPairs_append (n1 n2 k : Int) (ar : List Int) (x : Int) (hk : k ≠ 0) :
    (∃ r r1 : Int, divisibleSumPairs n1 k ar = Outcome.ok r
        ∧ divisibleSumPairs n2 k (ar ++ [x]) = Outcome.ok r1
        ∧ r1 = add32 r (ar.countP (fun a => hit k a x) : Nat))
      ∧ (testedPairCount k ar ≤ 2147483647 →
          ∀ m : Nat, ∃ rp rw : Int, divisibleSumPairs n2 k (ar.take m) = Outcome.ok rp
            ∧ divisibleSumPairs n1 k ar = Outcome.ok rw ∧ rp ≤ rw) := by
  constructor
  · refine ⟨_, _, divisibleSumPairs_eq n1 k ar hk, divisibleSumPairs_eq n2 k _ hk, ?_⟩
    rw [countPairs_append_singleton]
    unfold add32
    rw [wrap32_add_wrap32]
    push_cast
    rfl
  · intro hfit m
    rw [testedPairCount_eq] at hfit
    have hle : countPairs (hit k) (ar.take m) ≤ countPairs (hit k) ar := by
      have h := countPairs_le_append (hit k) (ar.take m) (ar.drop m)
      rwa [List.take_append_drop] at h
    refine ⟨_, _, divisibleSumPairs_eq n2 k _ hk, divisibleSumPairs_eq n1 k ar hk, ?_⟩
    rw [wrap32_natCast_of_le hle hfit, wrap32_natCast_of_le (Nat.le_refl _) hfit]
    exact Int.ofNat_le.2 hle

/-- The values C15 gives when `2` is appended to `[1, 3, 2, 6, 1]` with
divisor `3`, and on the prefix of length `3`. -/
theorem divisibleSumPairs_append_witness :
    ((3 : Int) ≠ 0)
      ∧ divisibleSumPairs 5 3 [1, 3, 2, 6, 1] = Outcome.ok 3
      ∧ divisibleSumPairs 6 3 ([1, 3, 2, 6, 1] ++ [2]) = Outcome.ok 5
      ∧ ([1, 3, 2, 6, 1] : List Int).countP (fun a => hit 3 a 2) = 2
      ∧ (∃ r r1 : Int, divisibleSumPairs 5 3 [1, 3, 2, 6, 1] = Outcome.ok r
          ∧ divisibleSumPairs 6 3 ([1, 3, 2, 6, 1] ++ [2]) = Outcome.ok r1
          ∧ r1 = add32 r (([1, 3, 2, 6, 1] : List Int).countP (fun a => hit 3 a 2) : Nat))
      ∧ (∃ rp rw : Int, divisibleSumPairs 6 3 (([1, 3, 2, 6, 1] : List Int).take 3)
            = Outcome.ok rp
          ∧ divisibleSumPairs 5 3 [1, 3, 2, 6, 1] = Outcome.ok rw ∧ rp ≤ rw) :=
  ⟨by decide, by decide, by decide, by decide,
    (divisibleSumPairs_append 5 6 3 [1, 3, 2, 6, 1] 2 (by decide)).1,
    (divisibleSumPairs_append 5 6 3 [1, 3, 2, 6, 1] 2 (by decide)).2 (by decide) 3⟩

/-- C16: the result does not depend on the sign of the divisor: for a 32-bit
divisor `k ≠ 0`, every `n` and every sequence, the call with `k` and the call
with its 32-bit negation have the same outcome. -/
theorem divisibleSumPairs_neg_divisor (n k : Int) (ar : List Int) (hk : k ≠ 0)
    (hk32 : isInt32 k) :
    divisibleSumPairs n k ar = divisibleSumPairs n (neg32 k) ar := by
  rw [divisibleSumPairs_eq n k ar hk,
    divisibleSumPairs_eq n (neg32 k) ar (neg32_ne_zero k hk hk32), hit_neg32 k hk32]

/-- The equality C16 gives for the divisor `3` and for the most negative
divisor, which is its own 32-bit negation. -/
theorem divisibleSumPairs_neg_divisor_witness :
    ((3 : Int) ≠ 0) ∧ isInt32 3 ∧ neg32 3 = -3 ∧ neg32 (-2147483648) = -2147483648
      ∧ divisibleSumPairs 4 3 [1, 2, -4, 7] = Outcome.ok 4
      ∧ divisibleSumPairs 4 3 [1, 2, -4, 7] = divisibleSumPairs 4 (neg32 3) [1, 2, -4, 7]
      ∧ divisibleSumPairs 2 (-2147483648) [-2147483648, 0]
          = divisibleSumPairs 2 (neg32 (-2147483648)) [-2147483648, 0] :=
  ⟨by decide, by decide, by decide, by decide, by decide,
    divisibleSumPairs_neg_divisor 4 3 [1, 2, -4, 7] (by decide) (by decide),
    divisibleSumPairs_neg_divisor 2 (-2147483648) [-2147483648, 0] (by decide) (by decide)⟩

end DivisibleSumPairs
